import Mathlib

/-!
A shallow embedding of the skip-list rope in `src/lib.rs` (crate `jumprope`),
together with theorems settling the specification claims about it.

Modelling conventions:
* Raw node pointers become indices into an explicit node store
  (`JumpRope.nodes`); the null pointer becomes `none`.
* A node's content is kept as its decoded character list (`List Char`);
  the `num_bytes` field of the Rust node is the derived UTF-8 byte length.
* Code that can panic (`unimplemented!`, failed `assert!`, dereferencing a
  null pointer, reading past an array bound) is modelled with `Option`:
  `none` is a panic, `some` a normal return.
* Loops become fuel-based recursion; the fuel is chosen large enough that
  it can only run out on a structurally corrupted rope.
-/

namespace Jumprope

/-- The two user-facing error kinds (`RopeError` in the source). -/
inductive RopeError where
  | PositionOutOfBounds
  | InvalidCodepoint
deriving DecidableEq, Repr

/-- Constant `MAX_HEIGHT` from the source: the maximal node height. -/
def MAX_HEIGHT : Nat := 13

/-- Constant `BIAS` from the source: the documented likelihood (%) that a node has
height n+1 instead of n.  (Defined in the source but, notably, never read
by `random_height`.) -/
def BIAS : Nat := 25

/-- Byte size of one `SkipEntry` (`usize` + pointer on x86_64), used by
`max_bytes_per_node` and the node capacity computation. -/
def sizeOfSkipEntry : Nat := 16

/-- Function `max_bytes_per_node()` from the source. -/
def max_bytes_per_node : Nat := MAX_HEIGHT * sizeOfSkipEntry

/-- One level's index entry (`SkipEntry` in the source): character distance
to the next node at this level and the next node itself (`none` = null). -/
structure SkipEntry where
  num_chars : Nat
  node : Option Nat
deriving DecidableEq, Repr

/-- Constructor `SkipEntry::new()`: zero distance, null pointer. -/
def SkipEntry.new : SkipEntry := ⟨0, none⟩

/-- A skip-list node (`Node` in the source).  `content` is the node's UTF-8
content, decoded; `skips` has length `height`. -/
structure Node where
  height : Nat
  content : List Char
  skips : List SkipEntry
deriving DecidableEq, Repr

/-- The `num_bytes` field of the Rust node: the UTF-8 byte length of the
content in use. -/
def Node.num_bytes (n : Node) : Nat := (n.content.map Char.utf8Size).sum

/-- Character capacity bound of a node (`Node::capacity()` in the source):
bytes not used by skip entries. -/
def Node.capacity (n : Node) : Nat := (MAX_HEIGHT - n.height) * sizeOfSkipEntry

/-- Constructor `Node::new_with_height(h)`: empty content, `h` fresh skip entries. -/
def Node.new_with_height (h : Nat) : Node :=
  ⟨h, [], List.replicate h SkipEntry.new⟩

/-- The rope container (`JumpRope` in the source).  `skips` is the sentinel
head node; `nodes` is the store the (former) raw pointers index into. -/
structure JumpRope where
  num_chars : Nat
  num_bytes : Nat
  skips : Node
  nodes : List Node
deriving DecidableEq, Repr

/-- Constructor `JumpRope::new()`: empty rope; note the sentinel is built with height 1,
not `MAX_HEIGHT`. -/
def JumpRope.new : JumpRope :=
  ⟨0, 0, Node.new_with_height 1, []⟩

/-- Method `Node::next()`: the level-0 successor pointer. -/
def Node.next (n : Node) : Option Nat :=
  match n.skips[0]? with
  | some sk => sk.node
  | none => none

/-- Method `JumpRope::head()`: the first real node of the rope. -/
def JumpRope.head (r : JumpRope) : Option Nat := r.skips.next

/-- Level-0 walk used by `to_string`, fuel-based (`none` = the walk ran out
of fuel, which cannot happen on a well-formed rope). -/
def toStringGo (r : JumpRope) : Nat → Option Nat → Option (List Char)
  | _, none => some []
  | 0, some _ => none
  | fuel + 1, some i =>
    match r.nodes[i]? with
    | none => none
    | some n => (toStringGo r fuel n.next).map (fun rest => n.content ++ rest)

/-- Method `to_string()`: concatenate all node contents along level 0. -/
def JumpRope.to_string (r : JumpRope) : Option (List Char) :=
  toStringGo r (r.nodes.length + 1) r.head

/-- Method `len()`: the byte count. -/
def JumpRope.len (r : JumpRope) : Nat := r.num_bytes

/-- Method `char_len()`: the character count. -/
def JumpRope.char_len (r : JumpRope) : Nat := r.num_chars

/-- Method `Rope::insert` for `JumpRope`, exactly as the source has it: an empty
`contents` returns `Ok(())` at once (before any bounds check on `pos`);
any non-empty `contents` reaches `unimplemented!()`, i.e. panics (`none`). -/
def JumpRope.insert (r : JumpRope) (pos : Nat) (contents : List Char) :
    Option (Except RopeError Unit × JumpRope) :=
  if contents.isEmpty then some (Except.ok (), r) else none

/-- Method `Rope::del` for `JumpRope`: the body is `unimplemented!()`, so every
call panics. -/
def JumpRope.del (r : JumpRope) (pos len : Nat) :
    Option (Except RopeError Unit × JumpRope) :=
  none

/-- Method `Rope::slice` for `JumpRope`: the body is `unimplemented!()`, so every
call panics. -/
def JumpRope.slice (r : JumpRope) (pos len : Nat) :
    Option (Except RopeError (List Char)) :=
  none

/-- The public mutating operations, for reachability statements. -/
inductive Op where
  | insert (pos : Nat) (contents : List Char)
  | del (pos len : Nat)
deriving DecidableEq, Repr

/-- Run one public mutating operation; `none` is a panic. -/
def applyOp (r : JumpRope) : Op → Option JumpRope
  | .insert pos contents => (r.insert pos contents).map Prod.snd
  | .del pos len => (r.del pos len).map Prod.snd

/-- Rope states reachable through the public interface without panicking. -/
inductive reachable : JumpRope → Prop where
  | base : reachable JumpRope.new
  | step {r r' : JumpRope} (op : Op) :
      reachable r → applyOp r op = some r' → reachable r'

/-- Any successfully applied public mutating operation leaves the rope
unchanged (the only non-panicking one is an empty insert). -/
lemma applyOp_eq_self {r r' : JumpRope} {op : Op}
    (h : applyOp r op = some r') : r' = r := by
  cases op with
  | insert pos contents =>
    by_cases hc : contents.isEmpty
    · simp [applyOp, JumpRope.insert, hc] at h
      exact h.symm
    · simp [applyOp, JumpRope.insert, hc] at h
  | del pos len => simp [applyOp, JumpRope.del] at h

/-- Every reachable rope state is the fresh empty rope. -/
lemma reachable_eq_new {r : JumpRope} (h : reachable r) : r = JumpRope.new := by
  induction h with
  | base => rfl
  | step op _ happ ih => exact (applyOp_eq_self happ).trans ih

/-! ## The traversal engine (`iter_at_char`) -/

/-- A reference to a node of the rope: the sentinel head, or a store index
(the shallow counterpart of a `*mut Node` that is known to be non-null). -/
inductive NodeRef where
  | head
  | idx (i : Nat)
deriving DecidableEq, Repr

/-- Dereference a `NodeRef`. -/
def getNode (r : JumpRope) : NodeRef → Option Node
  | .head => some r.skips
  | .idx i => r.nodes[i]?

/-- Characters strictly before node `i` in chain order. -/
def charsBefore (ns : List Node) (i : Nat) : Nat :=
  ((ns.take i).map (fun n => n.content.length)).sum

/-- Total characters held by the node store. -/
def totalChars (ns : List Node) : Nat :=
  (ns.map (fun n => n.content.length)).sum

/-- The character offset at which a referenced node's content starts. -/
def refBase (r : JumpRope) : NodeRef → Nat
  | .head => 0
  | .idx i => charsBefore r.nodes i

/-- The content length (in characters) of a referenced node. -/
def refContentLen (r : JumpRope) (e : NodeRef) : Nat :=
  ((getNode r e).map (fun n => n.content.length)).getD 0

/-- Index of the first node of `ns` whose height exceeds `L`. -/
def findTall (L : Nat) : List Node → Option Nat
  | [] => none
  | n :: rest => if L < n.height then some 0 else (findTall L rest).map (· + 1)

/-- Index of the first node at position `≥ s` whose height exceeds `L`:
the node a level-`L` skip entry owned just before position `s` points to. -/
def nextTall (ns : List Node) (s L : Nat) : Option Nat :=
  (findTall L (ns.drop s)).map (· + s)

/-- The store index right after a referenced node: where the search for its
skip-entry targets starts. -/
def sIdx : NodeRef → Nat
  | .head => 0
  | .idx i => i + 1

/-- Spec of one stored skip entry: owner starts at character `base` and its
successor search starts at store position `s`.  The entry's pointer must be
the next taller-than-`L` node and its distance must span exactly the
characters in between (or reach end of document on a null pointer). -/
def entryOk (r : JumpRope) (s base L : Nat) (sk : SkipEntry) : Bool :=
  match nextTall r.nodes s L with
  | some j => sk.node == some j && base + sk.num_chars == charsBefore r.nodes j
  | none => sk.node == none && base + sk.num_chars == totalChars r.nodes

/-- All structural constraints on one stored node. -/
def nodeOk (r : JumpRope) (i : Nat) (n : Node) : Bool :=
  decide (1 ≤ n.height) && decide (n.height ≤ r.skips.height) &&
  (n.skips.length == n.height) && !n.content.isEmpty &&
  decide (n.num_bytes ≤ n.capacity) &&
  (List.range n.height).all
    (fun L => entryOk r (i + 1) (charsBefore r.nodes i) L
      (n.skips.getD L SkipEntry.new))

/-- The structural invariants of a rope (spec §3): sentinel shape, correct
running totals, and correct skip entries at every node and level. -/
def Wf (r : JumpRope) : Bool :=
  r.skips.content.isEmpty &&
  decide (1 ≤ r.skips.height) && decide (r.skips.height ≤ MAX_HEIGHT) &&
  (r.skips.skips.length == r.skips.height) &&
  (r.num_chars == totalChars r.nodes) &&
  (List.range r.skips.height).all
    (fun L => entryOk r 0 0 L (r.skips.skips.getD L SkipEntry.new)) &&
  (List.range r.nodes.length).all
    (fun i => nodeOk r i (r.nodes.getD i (Node.new_with_height 1)))

/-- One recorded level of a `RopeIter` (the source records a raw `SkipEntry`
whose pointer may be the sentinel; `none` is the initial null). -/
structure IterEntry where
  num_chars : Nat
  node : Option NodeRef
deriving DecidableEq, Repr

/-- The loop body of `iter_at_char`, transcribed from the source.  At each
step, with `offset > skip` go right (panicking — `none` — on a failed
assertion or a null pointer), else record the current node for this level
and go down, returning the records once level 0 is recorded.  The final
`assert!(offset <= max_bytes_per_node())` of the source is checked when
level 0 is recorded. -/
def iterGo (r : JumpRope) :
    Nat → NodeRef → Nat → Nat → List IterEntry → Option (List IterEntry)
  | 0, _, _, _, _ => none
  | fuel + 1, e, height, offset, acc =>
    match getNode r e with
    | none => none
    | some en =>
      match en.skips[height]? with
      | none => none
      | some sk =>
        if sk.num_chars < offset then
          if e = NodeRef.head ∨ 0 < en.num_bytes then
            match sk.node with
            | none => none
            | some j => iterGo r fuel (.idx j) height (offset - sk.num_chars) acc
          else none
        else
          let acc1 := acc.set height ⟨offset, some e⟩
          if height = 0 then
            if offset ≤ max_bytes_per_node then some acc1 else none
          else iterGo r fuel e (height - 1) offset acc1

/-- Method `JumpRope::iter_at_char`, transcribed from the source: assert the
position is in range, then walk from the sentinel's top level down to
level 0.  The fuel covers every possible step of the source's loop on a
well-formed rope. -/
def iter_at_char (r : JumpRope) (char_pos : Nat) : Option (List IterEntry) :=
  if char_pos ≤ r.num_chars then
    iterGo r (r.nodes.length + r.skips.height + 1) NodeRef.head
      (r.skips.height - 1) char_pos
      (List.replicate MAX_HEIGHT ⟨0, none⟩)
  else none

/-- Modelled from the spec (§4.2 / claim C2), NOT from the source: the
traversal loop as the spec words it — "while the distance to the next node
at that level is less than or equal to the remaining offset, advance to
that node and subtract its distance from the remaining offset; otherwise
record the current node and remaining offset for this level, and drop to
the next lower level".  Over-skipping onto a null successor is the spec's
fatal internal check (`none`). -/
def specIterGo (r : JumpRope) :
    Nat → NodeRef → Nat → Nat → List IterEntry → Option (List IterEntry)
  | 0, _, _, _, _ => none
  | fuel + 1, e, height, offset, acc =>
    match getNode r e with
    | none => none
    | some en =>
      match en.skips[height]? with
      | none => none
      | some sk =>
        if sk.num_chars ≤ offset then
          match sk.node with
          | none => none
          | some j => specIterGo r fuel (.idx j) height (offset - sk.num_chars) acc
        else
          let acc1 := acc.set height ⟨offset, some e⟩
          if height = 0 then some acc1
          else specIterGo r fuel e (height - 1) offset acc1

/-- Modelled from the spec: the whole traversal using the spec's stated
advance rule (see `specIterGo`). -/
def specIterAtChar (r : JumpRope) (char_pos : Nat) : Option (List IterEntry) :=
  if char_pos ≤ r.num_chars then
    specIterGo r (r.nodes.length + r.skips.height + 1) NodeRef.head
      (r.skips.height - 1) char_pos
      (List.replicate MAX_HEIGHT ⟨0, none⟩)
  else none

/-! ## The height selector (`random_height`) -/

/-- The loop of `random_height`, with the source's implicit thread-local
generator made explicit as a stream of the booleans `rng.gen::<bool>()`
would return; `i` is the index of the next unconsumed draw. -/
def randomHeightGo (draws : Nat → Bool) : Nat → Nat → Nat → Nat
  | 0, h, _ => h
  | fuel + 1, h, i =>
    if h < MAX_HEIGHT then
      if draws i then randomHeightGo draws fuel (h + 1) (i + 1) else h
    else h

/-- Function `random_height()`, transcribed from the source: start at 1 and keep
incrementing while below `MAX_HEIGHT` and the next boolean draw is true.
Note the source draws with `rng.gen::<bool>()` and never consults `BIAS`. -/
def random_height (draws : Nat → Bool) : Nat :=
  randomHeightGo draws MAX_HEIGHT 1 0

/-- A concrete well-formed rope holding "abc" in a single height-1 node. -/
def exampleRope : JumpRope :=
  { num_chars := 3, num_bytes := 3
    skips := ⟨1, [], [⟨0, some 0⟩]⟩
    nodes := [⟨1, ['a', 'b', 'c'], [⟨3, none⟩]⟩] }

/-! ## Chain-position bookkeeping lemmas -/

lemma charsBefore_succ {ns : List Node} {i : Nat} {n : Node}
    (h : ns[i]? = some n) :
    charsBefore ns (i + 1) = charsBefore ns i + n.content.length := by
  unfold charsBefore
  rw [List.take_succ, h]
  simp

lemma charsBefore_le_succ (ns : List Node) (i : Nat) :
    charsBefore ns i ≤ charsBefore ns (i + 1) := by
  unfold charsBefore
  rw [List.take_succ]
  simp

lemma charsBefore_mono (ns : List Node) {i j : Nat} (h : i ≤ j) :
    charsBefore ns i ≤ charsBefore ns j := by
  induction j with
  | zero =>
    have : i = 0 := Nat.le_zero.mp h
    simp [this]
  | succ j ih =>
    rcases Nat.lt_or_ge i (j + 1) with hlt | hge
    · exact le_trans (ih (Nat.lt_succ_iff.mp hlt)) (charsBefore_le_succ ns j)
    · have : i = j + 1 := le_antisymm h hge
      simp [this]

lemma charsBefore_of_length_le {ns : List Node} {i : Nat}
    (h : ns.length ≤ i) : charsBefore ns i = totalChars ns := by
  unfold charsBefore totalChars
  rw [List.take_of_length_le h]

lemma charsBefore_le_total (ns : List Node) (i : Nat) :
    charsBefore ns i ≤ totalChars ns :=
  le_trans (charsBefore_mono ns (Nat.le_add_right i ns.length))
    (le_of_eq (charsBefore_of_length_le (Nat.le_add_left _ _)))

lemma findTall_some {L : Nat} :
    ∀ {ns : List Node} {k : Nat}, findTall L ns = some k →
      (∃ n, ns[k]? = some n ∧ L < n.height) ∧
      ∀ (m : Nat) (nm : Node), m < k → ns[m]? = some nm → nm.height ≤ L := by
  intro ns
  induction ns with
  | nil => intro k h; simp [findTall] at h
  | cons a tl ih =>
    intro k h
    by_cases ha : L < a.height
    · simp [findTall, ha] at h
      subst h
      exact ⟨⟨a, by simp, ha⟩, fun m nm hm _ => absurd hm (Nat.not_lt_zero m)⟩
    · simp [findTall, ha] at h
      obtain ⟨k2, hk2, rfl⟩ := h
      obtain ⟨⟨n, hn, hhn⟩, hmin⟩ := ih hk2
      refine ⟨⟨n, by simpa using hn, hhn⟩, ?_⟩
      intro m nm hm hnm
      cases m with
      | zero =>
        simp at hnm
        rw [← hnm]
        exact Nat.le_of_not_lt ha
      | succ m => exact hmin m nm (by omega) (by simpa using hnm)

lemma findTall_none {L : Nat} :
    ∀ {ns : List Node}, findTall L ns = none →
      ∀ (m : Nat) (nm : Node), ns[m]? = some nm → nm.height ≤ L := by
  intro ns
  induction ns with
  | nil => intro _ m nm hnm; simp at hnm
  | cons a tl ih =>
    intro h m nm hnm
    by_cases ha : L < a.height
    · simp [findTall, ha] at h
    · simp [findTall, ha] at h
      cases m with
      | zero =>
        simp at hnm
        rw [← hnm]
        exact Nat.le_of_not_lt ha
      | succ m => exact ih h m nm (by simpa using hnm)

lemma nextTall_some {ns : List Node} {s L j : Nat}
    (h : nextTall ns s L = some j) :
    s ≤ j ∧ (∃ n, ns[j]? = some n ∧ L < n.height) ∧
      ∀ (k : Nat) (m : Node), s ≤ k → k < j → ns[k]? = some m →
        m.height ≤ L := by
  unfold nextTall at h
  obtain ⟨t, ht, hj⟩ := Option.map_eq_some'.mp h
  obtain ⟨⟨n, hn, hhn⟩, hmin⟩ := findTall_some ht
  rw [List.getElem?_drop] at hn
  have hjst : j = s + t := by omega
  subst hjst
  refine ⟨Nat.le_add_right s t, ⟨n, hn, hhn⟩, ?_⟩
  intro k m hk hkj hm
  have hdrop : (ns.drop s)[k - s]? = some m := by
    rw [List.getElem?_drop]
    have : s + (k - s) = k := by omega
    rw [this]
    exact hm
  exact hmin (k - s) m (by omega) hdrop

lemma nextTall_none {ns : List Node} {s L : Nat}
    (h : nextTall ns s L = none) :
    ∀ (k : Nat) (m : Node), s ≤ k → ns[k]? = some m → m.height ≤ L := by
  unfold nextTall at h
  have h2 : findTall L (ns.drop s) = none := Option.map_eq_none'.mp h
  intro k m hk hm
  have hdrop : (ns.drop s)[k - s]? = some m := by
    rw [List.getElem?_drop]
    have : s + (k - s) = k := by omega
    rw [this]
    exact hm
  exact findTall_none h2 _ _ hdrop

/-! ## Well-formedness extraction lemmas -/

/-- Prop-level counterpart of `entryOk`. -/
def EntryOkP (r : JumpRope) (s base L : Nat) (sk : SkipEntry) : Prop :=
  match nextTall r.nodes s L with
  | some j => sk.node = some j ∧ base + sk.num_chars = charsBefore r.nodes j
  | none => sk.node = none ∧ base + sk.num_chars = totalChars r.nodes

lemma entryOk_iff {r : JumpRope} {s base L : Nat} {sk : SkipEntry} :
    entryOk r s base L sk = true ↔ EntryOkP r s base L sk := by
  unfold entryOk EntryOkP
  cases nextTall r.nodes s L <;> simp

lemma wf_facts {r : JumpRope} (hwf : Wf r = true) :
    r.skips.content = [] ∧ 1 ≤ r.skips.height ∧ r.skips.height ≤ MAX_HEIGHT ∧
    r.skips.skips.length = r.skips.height ∧
    r.num_chars = totalChars r.nodes := by
  rw [Wf] at hwf
  simp only [Bool.and_eq_true] at hwf
  obtain ⟨⟨⟨⟨⟨⟨h1, h2⟩, h3⟩, h4⟩, h5⟩, -⟩, -⟩ := hwf
  exact ⟨by simpa using h1, by simpa using h2, by simpa using h3,
    by simpa using h4, by simpa using h5⟩

lemma wf_sentinel_entry {r : JumpRope} (hwf : Wf r = true) {L : Nat}
    (hL : L < r.skips.height) :
    ∃ sk, r.skips.skips[L]? = some sk ∧ EntryOkP r 0 0 L sk := by
  have hlen : r.skips.skips.length = r.skips.height := (wf_facts hwf).2.2.2.1
  have hL2 : L < r.skips.skips.length := by omega
  have hall : (List.range r.skips.height).all
      (fun L => entryOk r 0 0 L (r.skips.skips.getD L SkipEntry.new)) = true := by
    rw [Wf] at hwf
    simp only [Bool.and_eq_true] at hwf
    exact hwf.1.2
  have hmem := List.all_eq_true.mp hall L (List.mem_range.mpr hL)
  obtain ⟨sk, hsome⟩ : ∃ x, r.skips.skips[L]? = some x := by
    rw [List.getElem?_eq_getElem hL2]
    exact ⟨_, rfl⟩
  have hgetD : r.skips.skips.getD L SkipEntry.new = sk := by
    rw [List.getD_eq_getElem?_getD, hsome]
    rfl
  rw [hgetD] at hmem
  exact ⟨sk, hsome, entryOk_iff.mp hmem⟩

lemma wf_node {r : JumpRope} (hwf : Wf r = true) {i : Nat} {n : Node}
    (hn : r.nodes[i]? = some n) :
    1 ≤ n.height ∧ n.height ≤ r.skips.height ∧ n.skips.length = n.height ∧
    n.content ≠ [] ∧ n.num_bytes ≤ n.capacity ∧
    ∀ L, L < n.height →
      ∃ sk, n.skips[L]? = some sk ∧
        EntryOkP r (i + 1) (charsBefore r.nodes i) L sk := by
  have hi : i < r.nodes.length := (List.getElem?_eq_some.mp hn).1
  have hall : (List.range r.nodes.length).all
      (fun i => nodeOk r i (r.nodes.getD i (Node.new_with_height 1))) = true := by
    rw [Wf] at hwf
    simp only [Bool.and_eq_true] at hwf
    exact hwf.2
  have hnok := List.all_eq_true.mp hall i (List.mem_range.mpr hi)
  have hget : r.nodes.getD i (Node.new_with_height 1) = n := by
    rw [List.getD_eq_getElem?_getD, hn]
    rfl
  rw [hget, nodeOk] at hnok
  simp only [Bool.and_eq_true, decide_eq_true_eq] at hnok
  obtain ⟨⟨⟨⟨⟨hh1, hh2⟩, hh3⟩, hh4⟩, hh5⟩, hh6⟩ := hnok
  have hlen : n.skips.length = n.height := by simpa using hh3
  refine ⟨hh1, hh2, hlen, ?_, hh5, ?_⟩
  · intro hnil
    rw [hnil] at hh4
    simp at hh4
  · intro L hL
    have hL2 : L < n.skips.length := by omega
    obtain ⟨sk, hsome⟩ : ∃ x, n.skips[L]? = some x := by
      rw [List.getElem?_eq_getElem hL2]
      exact ⟨_, rfl⟩
    have hmem := List.all_eq_true.mp hh6 L (List.mem_range.mpr hL)
    have hgetD : n.skips.getD L SkipEntry.new = sk := by
      rw [List.getD_eq_getElem?_getD, hsome]
      rfl
    rw [hgetD] at hmem
    exact ⟨sk, hsome, entryOk_iff.mp hmem⟩

/-! ## The nodes the traversal is specified to reach -/

/-- Node `k` is a candidate for level `L` of the traversal to `pos`: it
carries a level-`L` skip entry and its content starts strictly before
`pos`. -/
def isCand (r : JumpRope) (pos L k : Nat) : Prop :=
  ∃ n, r.nodes[k]? = some n ∧ L < n.height ∧ charsBefore r.nodes k < pos

/-- The node the traversal to `pos` reaches at level `L`: the last
candidate in chain order, or the sentinel when there is none. -/
def reachedAt (r : JumpRope) (pos L : Nat) : NodeRef → Prop
  | .head => ∀ k, ¬ isCand r pos L k
  | .idx i => isCand r pos L i ∧ ∀ k, isCand r pos L k → k ≤ i

/-- Loop invariant of the traversal: the current node is tall enough for
the current level and starts before `pos` (or is the sentinel). -/
def validRef (r : JumpRope) (pos height : Nat) : NodeRef → Prop
  | .head => height < r.skips.height
  | .idx i => isCand r pos height i

lemma Node.num_bytes_pos {n : Node} (h : n.content ≠ []) : 0 < n.num_bytes := by
  cases hc : n.content with
  | nil => exact absurd hc h
  | cons a l =>
    have ha := Char.utf8Size_pos a
    unfold Node.num_bytes
    rw [hc]
    simp only [List.map_cons, List.sum_cons]
    omega

lemma length_le_sum_utf8 (l : List Char) :
    l.length ≤ (l.map Char.utf8Size).sum := by
  induction l with
  | nil => simp
  | cons a t ih =>
    have ha := Char.utf8Size_pos a
    simp only [List.map_cons, List.sum_cons, List.length_cons]
    omega

lemma refContentLen_eq {r : JumpRope} {e : NodeRef} {n : Node}
    (h : getNode r e = some n) : refContentLen r e = n.content.length := by
  unfold refContentLen
  rw [h]
  rfl

/-- A referenced node's character count never exceeds the byte budget the
source's final assertion checks against. -/
lemma refContentLen_le_max {r : JumpRope} (hwf : Wf r = true) (e : NodeRef) :
    refContentLen r e ≤ max_bytes_per_node := by
  cases e with
  | head =>
    have h := (wf_facts hwf).1
    simp [refContentLen, getNode, h]
  | idx i =>
    cases hn : r.nodes[i]? with
    | none =>
      simp only [refContentLen, getNode]
      rw [hn]
      simp [max_bytes_per_node]
    | some n =>
      have hfun := wf_node hwf hn
      have h1 : n.content.length ≤ n.num_bytes := length_le_sum_utf8 n.content
      have h2 : n.num_bytes ≤ n.capacity := hfun.2.2.2.2.1
      have h3 : n.capacity ≤ max_bytes_per_node := by
        unfold Node.capacity max_bytes_per_node
        exact Nat.mul_le_mul_right _ (Nat.sub_le _ _)
      have h4 : refContentLen r (NodeRef.idx i) = n.content.length := by
        simp only [refContentLen, getNode]
        rw [hn]
        rfl
      omega

/-- Once an entry's span carries the traversal to or past `pos`, no
candidate for that level lies at or beyond the entry's owner's successor
search position `s`. -/
lemma no_cand_beyond {r : JumpRope} {pos L s base : Nat} {sk : SkipEntry}
    (hok : EntryOkP r s base L sk) (hrec : pos ≤ base + sk.num_chars) :
    ∀ k, s ≤ k → ¬ isCand r pos L k := by
  intro k hk hcand
  obtain ⟨n, hg, hh, hlt⟩ := hcand
  unfold EntryOkP at hok
  cases hj : nextTall r.nodes s L with
  | some j =>
    rw [hj] at hok
    obtain ⟨-, hchars⟩ := hok
    obtain ⟨hsj, -, hmin⟩ := nextTall_some hj
    have hkj : j ≤ k := by
      by_contra hcon
      exact absurd hh (Nat.not_lt.mpr (hmin k n hk (by omega) hg))
    have := charsBefore_mono r.nodes hkj
    omega
  | none =>
    rw [hj] at hok
    exact absurd hh (Nat.not_lt.mpr (nextTall_none hj k n hk hg))

/-- At level 0 every stored node is tall, so a level-0 entry spans exactly
its owner's content. -/
lemma entry_level_zero {r : JumpRope} (hwf : Wf r = true) {e : NodeRef}
    {en : Node} {sk : SkipEntry} (hen : getNode r e = some en)
    (hok : EntryOkP r (sIdx e) (refBase r e) 0 sk) :
    sk.num_chars = refContentLen r e := by
  unfold EntryOkP at hok
  cases e with
  | head =>
    have hcontent : r.skips.content = [] := (wf_facts hwf).1
    have hlen : refContentLen r NodeRef.head = 0 := by
      simp [refContentLen, getNode, hcontent]
    rw [hlen]
    cases hj : nextTall r.nodes (sIdx NodeRef.head) 0 with
    | some j =>
      rw [hj] at hok
      obtain ⟨-, hchars⟩ := hok
      obtain ⟨-, ⟨nj, hnj, -⟩, hmin⟩ := nextTall_some hj
      have hjlen : j < r.nodes.length := (List.getElem?_eq_some.mp hnj).1
      have hj0 : j = 0 := by
        by_contra hcon
        obtain ⟨x, hx⟩ : ∃ x, r.nodes[0]? = some x := by
          rw [List.getElem?_eq_getElem (by omega : 0 < r.nodes.length)]
          exact ⟨_, rfl⟩
        have hx1 := (wf_node hwf hx).1
        have := hmin 0 x (Nat.zero_le 0) (by omega) hx
        omega
      rw [hj0] at hchars
      simpa [charsBefore, refBase, sIdx] using hchars
    | none =>
      rw [hj] at hok
      obtain ⟨-, hchars⟩ := hok
      have hempty : r.nodes.length = 0 := by
        by_contra hcon
        obtain ⟨x, hx⟩ : ∃ x, r.nodes[0]? = some x := by
          rw [List.getElem?_eq_getElem (by omega : 0 < r.nodes.length)]
          exact ⟨_, rfl⟩
        have hx1 := (wf_node hwf hx).1
        have := nextTall_none hj 0 x (Nat.zero_le 0) hx
        omega
      have : totalChars r.nodes = 0 := by
        rw [List.length_eq_zero.mp hempty]
        rfl
      simp only [refBase, sIdx] at hchars
      omega
  | idx i =>
    have hen2 : r.nodes[i]? = some en := hen
    have hilen : i < r.nodes.length := (List.getElem?_eq_some.mp hen2).1
    have hclen : refContentLen r (NodeRef.idx i) = en.content.length := by
      simp only [refContentLen, getNode]
      rw [hen2]
      rfl
    rw [hclen]
    have hsucc : charsBefore r.nodes (i + 1) =
        charsBefore r.nodes i + en.content.length := charsBefore_succ hen2
    cases hj : nextTall r.nodes (sIdx (NodeRef.idx i)) 0 with
    | some j =>
      rw [hj] at hok
      obtain ⟨-, hchars⟩ := hok
      obtain ⟨hsj, ⟨nj, hnj, -⟩, hmin⟩ := nextTall_some hj
      have hjlen : j < r.nodes.length := (List.getElem?_eq_some.mp hnj).1
      have hsle : sIdx (NodeRef.idx i) = i + 1 := rfl
      have hj1 : j = i + 1 := by
        by_contra hcon
        have hlt2 : i + 1 < j := by
          rw [hsle] at hsj
          omega
        obtain ⟨x, hx⟩ : ∃ x, r.nodes[i + 1]? = some x := by
          rw [List.getElem?_eq_getElem (by omega : i + 1 < r.nodes.length)]
          exact ⟨_, rfl⟩
        have hx1 := (wf_node hwf hx).1
        have := hmin (i + 1) x (by omega) (by omega) hx
        omega
      rw [hj1, hsucc] at hchars
      simp only [refBase] at hchars
      omega
    | none =>
      rw [hj] at hok
      obtain ⟨-, hchars⟩ := hok
      have hend : r.nodes.length = i + 1 := by
        by_contra hcon
        obtain ⟨x, hx⟩ : ∃ x, r.nodes[i + 1]? = some x := by
          rw [List.getElem?_eq_getElem (by omega : i + 1 < r.nodes.length)]
          exact ⟨_, rfl⟩
        have hx1 := (wf_node hwf hx).1
        have := nextTall_none hj (i + 1) x (by rfl) hx
        omega
      have htot : totalChars r.nodes = charsBefore r.nodes (i + 1) :=
        (charsBefore_of_length_le (le_of_eq hend)).symm
      rw [htot, hsucc] at hchars
      simp only [refBase] at hchars
      omega

/-- On a valid loop state the current node dereferences, carries an entry
at the current level, and that entry is well-formed;  moreover the node is
the sentinel or has content (the source's go-right assertion). -/
lemma validRef_entry {r : JumpRope} (hwf : Wf r = true) {pos height : Nat}
    {e : NodeRef} (hv : validRef r pos height e) :
    ∃ en sk, getNode r e = some en ∧ en.skips[height]? = some sk ∧
      EntryOkP r (sIdx e) (refBase r e) height sk ∧
      height < en.height ∧ en.height ≤ MAX_HEIGHT ∧
      (e = NodeRef.head ∨ 0 < en.num_bytes) := by
  cases e with
  | head =>
    simp only [validRef] at hv
    have hfacts := wf_facts hwf
    obtain ⟨sk, hsk, hok⟩ := wf_sentinel_entry hwf hv
    exact ⟨r.skips, sk, rfl, hsk, hok, hv, hfacts.2.2.1, Or.inl rfl⟩
  | idx i =>
    simp only [validRef] at hv
    obtain ⟨n, hn, hh, hlt⟩ := hv
    obtain ⟨h1, h2, h3, h4, h5, hentries⟩ := wf_node hwf hn
    obtain ⟨sk, hsk, hok⟩ := hentries height hh
    exact ⟨n, sk, hn, hsk, hok, hh,
      le_trans h2 (wf_facts hwf).2.2.1, Or.inr (Node.num_bytes_pos h4)⟩

/-! ## Correctness of the traversal engine -/

lemma iterGo_correct {r : JumpRope} (hwf : Wf r = true) {pos : Nat}
    (hpos : pos ≤ r.num_chars) :
    ∀ (fuel height : Nat) (e : NodeRef) (offset : Nat) (acc : List IterEntry),
      acc.length = MAX_HEIGHT →
      refBase r e + offset = pos →
      validRef r pos height e →
      r.nodes.length + height + 1 ≤ fuel + sIdx e →
      ∃ res, iterGo r fuel e height offset acc = some res ∧
        res.length = MAX_HEIGHT ∧
        (∀ L, height < L → res[L]? = acc[L]?) ∧
        (∀ L, L ≤ height → ∃ e2, reachedAt r pos L e2 ∧
          res[L]? = some ⟨pos - refBase r e2, some e2⟩ ∧
          (L = 0 → pos - refBase r e2 ≤ refContentLen r e2)) := by
  intro fuel
  induction fuel with
  | zero =>
    intro height e offset acc hacc hoff hv hfuel
    exfalso
    have hs : sIdx e ≤ r.nodes.length := by
      cases e with
      | head => exact Nat.zero_le _
      | idx i =>
        simp only [validRef] at hv
        obtain ⟨n, hn, -, -⟩ := hv
        have := (List.getElem?_eq_some.mp hn).1
        simp only [sIdx]
        omega
    omega
  | succ fuel ih =>
    intro height e offset acc hacc hoff hv hfuel
    obtain ⟨en, sk, hen, hsk, hok, hhe, hmaxh, hassert⟩ := validRef_entry hwf hv
    have hheightmax : height < MAX_HEIGHT := lt_of_lt_of_le hhe hmaxh
    simp only [iterGo, hen, hsk]
    by_cases hadv : sk.num_chars < offset
    · -- the source goes right
      rw [if_pos hadv, if_pos hassert]
      unfold EntryOkP at hok
      cases hj : nextTall r.nodes (sIdx e) height with
      | none =>
        exfalso
        rw [hj] at hok
        have htot := hok.2
        have hnum := (wf_facts hwf).2.2.2.2
        omega
      | some j =>
        rw [hj] at hok
        obtain ⟨hnode, hchars⟩ := hok
        rw [hnode]
        obtain ⟨hsj, ⟨nj, hnj, hhj⟩, -⟩ := nextTall_some hj
        have hoff2 : refBase r (NodeRef.idx j) + (offset - sk.num_chars) = pos := by
          simp only [refBase]
          omega
        have hv2 : validRef r pos height (NodeRef.idx j) := by
          simp only [validRef, isCand]
          exact ⟨nj, hnj, hhj, by omega⟩
        have hfuel2 :
            r.nodes.length + height + 1 ≤ fuel + sIdx (NodeRef.idx j) := by
          simp only [sIdx]
          omega
        exact ih height (NodeRef.idx j) (offset - sk.num_chars) acc
          hacc hoff2 hv2 hfuel2
    · -- the source records this node and goes down
      rw [if_neg hadv]
      have hoffle : offset ≤ sk.num_chars := Nat.le_of_not_lt hadv
      have hreach : reachedAt r pos height e := by
        have hrec : pos ≤ refBase r e + sk.num_chars := by omega
        have hnc := no_cand_beyond hok hrec
        cases e with
        | head =>
          simp only [reachedAt]
          intro k
          exact hnc k (Nat.zero_le k)
        | idx i =>
          simp only [validRef] at hv
          simp only [reachedAt]
          refine ⟨hv, ?_⟩
          intro k hk
          by_contra hcon
          exact hnc k (by simp only [sIdx]; omega) hk
      have hoffeq : offset = pos - refBase r e := by omega
      have hacclen : height < acc.length := by omega
      have hset : (acc.set height ⟨offset, some e⟩)[height]? =
          some ⟨offset, some e⟩ := List.getElem?_set_eq_of_lt _ hacclen
      have hsetlen : (acc.set height ⟨offset, some e⟩).length = MAX_HEIGHT := by
        rw [List.length_set]
        exact hacc
      by_cases h0 : height = 0
      · subst h0
        have hlv0 : sk.num_chars = refContentLen r e :=
          entry_level_zero hwf hen hok
        have hmb : offset ≤ max_bytes_per_node :=
          le_trans (by omega) (refContentLen_le_max hwf e)
        rw [if_pos rfl, if_pos hmb]
        refine ⟨acc.set 0 ⟨offset, some e⟩, rfl, hsetlen, ?_, ?_⟩
        · intro L hL
          exact List.getElem?_set_ne (by omega)
        · intro L hL
          have hL0 : L = 0 := Nat.le_zero.mp hL
          subst hL0
          refine ⟨e, hreach, ?_, ?_⟩
          · rw [hset, hoffeq]
          · intro _
            rw [← hoffeq]
            omega
      · rw [if_neg h0]
        have hv2 : validRef r pos (height - 1) e := by
          cases e with
          | head =>
            simp only [validRef] at hv ⊢
            omega
          | idx i =>
            simp only [validRef, isCand] at hv ⊢
            obtain ⟨n, hn, hh, hlt⟩ := hv
            exact ⟨n, hn, by omega, hlt⟩
        have hfuel2 : r.nodes.length + (height - 1) + 1 ≤ fuel + sIdx e := by
          omega
        obtain ⟨res, hres, hreslen, habove, hbelow⟩ :=
          ih (height - 1) e offset (acc.set height ⟨offset, some e⟩)
            hsetlen hoff hv2 hfuel2
        refine ⟨res, hres, hreslen, ?_, ?_⟩
        · intro L hL
          rw [habove L (by omega)]
          exact List.getElem?_set_ne (by omega)
        · intro L hL
          rcases Nat.lt_or_ge L height with hlt | hge
          · exact hbelow L (by omega)
          · have hLh : L = height := by omega
            subst hLh
            refine ⟨e, hreach, ?_, ?_⟩
            · rw [habove L (by omega), hset, hoffeq]
            · intro hL0
              exact absurd hL0 h0

/-! ## Height-selector lemmas -/

lemma randomHeightGo_lower (draws : Nat → Bool) :
    ∀ fuel h i, h ≤ randomHeightGo draws fuel h i := by
  intro fuel
  induction fuel with
  | zero => intro h i; simp [randomHeightGo]
  | succ fuel ih =>
    intro h i
    simp only [randomHeightGo]
    by_cases hmax : h < MAX_HEIGHT
    · by_cases hd : draws i = true
      · simpa [hmax, hd] using Nat.le_trans (Nat.le_succ h) (ih (h + 1) (i + 1))
      · simp [hmax, hd]
    · simp [hmax]

lemma randomHeightGo_upper (draws : Nat → Bool) :
    ∀ fuel h i, h ≤ MAX_HEIGHT → randomHeightGo draws fuel h i ≤ MAX_HEIGHT := by
  intro fuel
  induction fuel with
  | zero => intro h i hh; simpa [randomHeightGo] using hh
  | succ fuel ih =>
    intro h i hh
    simp only [randomHeightGo]
    by_cases hmax : h < MAX_HEIGHT
    · by_cases hd : draws i = true
      · simpa [hmax, hd] using ih (h + 1) (i + 1) hmax
      · simpa [hmax, hd] using hh
    · simpa [hmax] using hh

/-! ## Theorems for the simple claims -/

/-- Claim C1: the spec (and the repository's own test `insert_at_location`)
says `insert(0, "AAA")` on a fresh rope succeeds and splices the text in;
the code instead reaches `unimplemented!()` and panics (`none`) on every
non-empty insertion. -/
theorem insert_nonempty_panics_on_new :
    JumpRope.insert JumpRope.new 0 ['A', 'A', 'A'] = none := rfl

/-- Claim C5: the spec (and the repository's own test
`del_past_end_of_string`) says `del(0, 100)` on the empty rope succeeds as
a clamped no-op; the code's `del` body is `unimplemented!()` and panics. -/
theorem del_panics_on_new :
    JumpRope.del JumpRope.new 0 100 = none := rfl

/-- Claim C6: the spec says `slice(0, 0)` on the empty rope succeeds and
returns the empty substring of `to_string()`; the code's `slice` body is
`unimplemented!()` and panics. -/
theorem slice_panics_on_new :
    JumpRope.slice JumpRope.new 0 0 = none := rfl

/-- Claim C7: the spec says any position beyond `char_len()` fails with the
recoverable `PositionOutOfBounds`; the code never produces that error:
with non-empty text (and out-of-range `pos = 1 > 0 = char_len`) `insert`
panics, with empty text it returns `Ok(())`, and out-of-range `del` and
`slice` panic as well. -/
theorem out_of_bounds_never_reports_error :
    JumpRope.insert JumpRope.new 1 ['x'] = none ∧
    JumpRope.insert JumpRope.new 1 [] = some (Except.ok (), JumpRope.new) ∧
    JumpRope.del JumpRope.new 1 1 = none ∧
    JumpRope.slice JumpRope.new 1 1 = none :=
  ⟨rfl, rfl, rfl, rfl⟩

/-- Claim C8: the empty-insert half of the claim holds (`insert(0, "")` is
a successful no-op), but `del(0, 0)`, which the spec says is a successful
no-op as well, panics through `unimplemented!()`. -/
theorem empty_edits_insert_ok_del_panics :
    JumpRope.insert JumpRope.new 0 [] = some (Except.ok (), JumpRope.new) ∧
    JumpRope.del JumpRope.new 0 0 = none :=
  ⟨rfl, rfl⟩

/-- Claim C9: inserting the empty string returns `Ok(())` and leaves the
rope unchanged for every position whatsoever, in or out of bounds, because
the source checks `contents.len() == 0` before any bounds validation. -/
theorem insert_empty_always_ok :
    ∀ (r : JumpRope) (pos : Nat), r.insert pos [] = some (Except.ok (), r) :=
  fun _ _ => rfl

/-- Claim C10: every non-empty `insert`, every `del` and every `slice`
panics (`unimplemented!()`), so the only rope state reachable through the
public interface is the fresh empty rope. -/
theorem mutators_unimplemented_only_new_reachable :
    (∀ (r : JumpRope) (pos : Nat) (contents : List Char),
      contents ≠ [] → r.insert pos contents = none) ∧
    (∀ (r : JumpRope) (pos len : Nat), r.del pos len = none) ∧
    (∀ (r : JumpRope) (pos len : Nat), r.slice pos len = none) ∧
    (∀ r : JumpRope, reachable r → r = JumpRope.new) := by
  refine ⟨?_, fun _ _ _ => rfl, fun _ _ _ => rfl, fun _ h => reachable_eq_new h⟩
  intro r pos contents hne
  have : contents.isEmpty = false := by
    cases contents with
    | nil => exact absurd rfl hne
    | cons a l => rfl
  simp [JumpRope.insert, this]

/-- Witness for claim C10's theorem at concrete inputs. -/
theorem mutators_unimplemented_only_new_reachable_witness :
    (['z'] ≠ ([] : List Char) ∧ JumpRope.insert JumpRope.new 2 ['z'] = none) ∧
    JumpRope.del JumpRope.new 3 4 = none ∧
    JumpRope.slice JumpRope.new 3 4 = none ∧
    (reachable JumpRope.new ∧ JumpRope.new = JumpRope.new) :=
  ⟨⟨by simp, mutators_unimplemented_only_new_reachable.1 JumpRope.new 2 ['z'] (by simp)⟩,
    mutators_unimplemented_only_new_reachable.2.1 JumpRope.new 3 4,
    mutators_unimplemented_only_new_reachable.2.2.1 JumpRope.new 3 4,
    ⟨reachable.base,
      mutators_unimplemented_only_new_reachable.2.2.2 JumpRope.new reachable.base⟩⟩

/-- Claim C4 counterexample: a fresh rope's sentinel has height 1, not
`MAX_HEIGHT` (the source builds it with `Node::new_with_height(1)`; the
sentinel tracks the rope's current maximum height, not the constant). -/
theorem sentinel_height_not_max :
    JumpRope.new.skips.height = 1 ∧ MAX_HEIGHT = 13 ∧
    JumpRope.new.skips.height ≠ MAX_HEIGHT :=
  ⟨rfl, rfl, by decide⟩

/-- Claim C4 as amended: in a fresh rope and after every public operation,
the sentinel holds zero content bytes and its height is 1 (the rope's
current maximum height), not the `MAX_HEIGHT` constant. -/
theorem sentinel_zero_content_height_one :
    ∀ r : JumpRope, reachable r →
      r.skips.height = 1 ∧ r.skips.content = [] ∧ r.skips.num_bytes = 0 := by
  intro r h
  rw [reachable_eq_new h]
  exact ⟨rfl, rfl, rfl⟩

/-- Witness for the amended claim C4 at the fresh rope. -/
theorem sentinel_zero_content_height_one_witness :
    reachable JumpRope.new ∧
      (JumpRope.new.skips.height = 1 ∧ JumpRope.new.skips.content = [] ∧
        JumpRope.new.skips.num_bytes = 0) :=
  ⟨reachable.base, sentinel_zero_content_height_one JumpRope.new reachable.base⟩

/-- Claim C3: the height selector does stay within `1..=MAX_HEIGHT`, but
each continuation step is decided by `rng.gen::<bool>()` — a fair coin.
Exactly one of the two equally likely first draws continues past height 1,
so the continuation probability is 1/2, not the claimed `BIAS`% = 25%
(the `BIAS` constant is never read by `random_height`). -/
theorem random_height_range_and_fair_coin :
    (∀ draws : Nat → Bool,
      1 ≤ random_height draws ∧ random_height draws ≤ MAX_HEIGHT) ∧
    List.countP (fun b => decide (2 ≤ random_height (fun _ => b)))
      [false, true] = 1 ∧
    ¬((List.countP (fun b => decide (2 ≤ random_height (fun _ => b)))
      [false, true] : ℚ) / 2 = (BIAS : ℚ) / 100) := by
  refine ⟨fun draws => ⟨randomHeightGo_lower draws MAX_HEIGHT 1 0,
    randomHeightGo_upper draws MAX_HEIGHT 1 0 (by decide)⟩, by decide, ?_⟩
  have hc : List.countP (fun b => decide (2 ≤ random_height (fun _ => b)))
      [false, true] = 1 := by decide
  rw [hc, BIAS]
  norm_num

/-- Claim C2 as amended: on a well-formed rope, for `0 ≤ pos ≤ num_chars`,
`iter_at_char` succeeds and returns, for every level from the sentinel's
height down to 0, the node reached at that level — the LAST node with a
skip entry at that level whose content starts STRICTLY before `pos`
(the traversal advances only while the next node's distance is strictly
less than the remaining offset; at equality it stays and drops a level) —
together with the remaining offset `pos` minus that node's start; at
level 0 this remaining offset is the in-node character offset of `pos`. -/
theorem iter_at_char_reaches (r : JumpRope) (pos : Nat)
    (hwf : Wf r = true) (hpos : pos ≤ r.num_chars) :
    ∃ res, iter_at_char r pos = some res ∧ res.length = MAX_HEIGHT ∧
      ∀ L, L < r.skips.height → ∃ e, reachedAt r pos L e ∧
        res[L]? = some ⟨pos - refBase r e, some e⟩ ∧
        (L = 0 → pos - refBase r e ≤ refContentLen r e) := by
  have h1 : (1 : Nat) ≤ r.skips.height := (wf_facts hwf).2.1
  have hinit : validRef r pos (r.skips.height - 1) NodeRef.head := by
    simp only [validRef]
    omega
  have hoff : refBase r NodeRef.head + pos = pos := by
    simp [refBase]
  have hfuel : r.nodes.length + (r.skips.height - 1) + 1 ≤
      (r.nodes.length + r.skips.height + 1) + sIdx NodeRef.head := by
    simp only [sIdx]
    omega
  obtain ⟨res, hres, hlen, -, hbelow⟩ :=
    iterGo_correct hwf hpos (r.nodes.length + r.skips.height + 1)
      (r.skips.height - 1) NodeRef.head pos
      (List.replicate MAX_HEIGHT ⟨0, none⟩) (by simp) hoff hinit hfuel
  refine ⟨res, ?_, hlen, ?_⟩
  · simp only [iter_at_char]
    rw [if_pos hpos]
    exact hres
  · intro L hL
    exact hbelow L (by omega)

/-- Claim C2 counterexample: on the well-formed one-node rope "abc", at
the legal position 3 (= `num_chars`), the source's traversal — which
advances only on a STRICTLY smaller distance — succeeds, while the spec's
stated algorithm — advance whenever the distance is less than OR EQUAL to
the remaining offset — over-skips past the null successor and dies on the
fatal internal check, so the two differ. -/
theorem iter_at_char_ne_spec_algorithm :
    Wf exampleRope = true ∧ 3 ≤ exampleRope.num_chars ∧
    specIterAtChar exampleRope 3 = none ∧
    iter_at_char exampleRope 3 ≠ specIterAtChar exampleRope 3 :=
  ⟨by decide, by decide, by decide, by decide⟩

/-- Witness for the amended claim C2 theorem at the concrete rope "abc"
and position 3. -/
theorem iter_at_char_reaches_witness :
    Wf exampleRope = true ∧ 3 ≤ exampleRope.num_chars ∧
    (∃ res, iter_at_char exampleRope 3 = some res ∧
      res.length = MAX_HEIGHT ∧
      ∀ L, L < exampleRope.skips.height → ∃ e, reachedAt exampleRope 3 L e ∧
        res[L]? = some ⟨3 - refBase exampleRope e, some e⟩ ∧
        (L = 0 → 3 - refBase exampleRope e ≤ refContentLen exampleRope e)) :=
  ⟨by decide, by decide, iter_at_char_reaches exampleRope 3 (by decide) (by decide)⟩
